import Mathlib

/-!
Verification of the semantic-search core of the mail-CLI repository
(`semantic_search.py`).  The Python functions `clean_email_body`,
`create_email_embedding` (its text-assembly part), `semantic_search` and
`search_with_threshold` are embedded as executable Lean functions over
`List Char` / `String`, with similarity scores abstracted as exact rationals
supplied by an arbitrary scoring function (the sentence-transformer model is
an external collaborator; only the ranking logic is in the source).

Conventions used throughout the embedding:
* Python `re` character classes `\s` and `\w` are modelled for ASCII text
  (`\s` = space, tab, newline, carriage return, vertical tab, form feed;
  `\w` = letters, digits, underscore).
* Each `re.sub` call of the source becomes a character-level scanner with the
  same leftmost, non-overlapping replacement semantics.  Scanners that jump
  past a matched span take an explicit fuel argument (initialised to the
  input length, which bounds the number of scanning steps) so that every
  definition is structurally recursive and evaluable by `decide`.
-/

namespace MailCLI

/-- Python regex `\s` for ASCII text. -/
def isPySpace (c : Char) : Bool :=
  c = ' ' || c = '\t' || c = '\n' || c = '\r' || c = '\x0b' || c = '\x0c'

/-- Python regex `\w` for ASCII text: letters, digits and underscore. -/
def isWordChar (c : Char) : Bool :=
  c.isAlphanum || c = '_'

/-- List-of-chars form of a prefix test (no library dependence, used by the
regex scanners). -/
def isPre : List Char → List Char → Bool
  | [], _ => true
  | _ :: _, [] => false
  | p :: ps, c :: cs => p = c && isPre ps cs

/-- Head-is-whitespace test. -/
def startsSpace : List Char → Bool
  | [] => false
  | c :: _ => isPySpace c

/-- Head-is-word-character test (used for `\b` word boundaries). -/
def wordAt : List Char → Bool
  | [] => false
  | c :: _ => isWordChar c

/-- Head-is-greater-than test, modelling `line.strip().startswith('>')`. -/
def startsWithGt : List Char → Bool
  | [] => false
  | c :: _ => c = '>'

/-- Models Python `html.unescape` (line 50 of the source) restricted to the
basic named entities; the claims under verification never depend on the wider
HTML5 entity table, only on the facts that unescaping rewrites at ampersands
and is the identity on ampersand-free text.  Fueled to stay structural. -/
def unescapeF : Nat → List Char → List Char
  | 0, l => l
  | _ + 1, [] => []
  | n + 1, c :: rest =>
    if c = '&' then
      if isPre "amp;".data rest then '&' :: unescapeF n (rest.drop 4)
      else if isPre "lt;".data rest then '<' :: unescapeF n (rest.drop 3)
      else if isPre "gt;".data rest then '>' :: unescapeF n (rest.drop 3)
      else if isPre "quot;".data rest then '"' :: unescapeF n (rest.drop 5)
      else if isPre "#39;".data rest then '\'' :: unescapeF n (rest.drop 4)
      else c :: unescapeF n rest
    else c :: unescapeF n rest

/-- Split a list at the first `'>'`, returning the part before it and the part
after it (helper for the HTML-tag regex `<[^>]+>`). -/
def splitAtGt : List Char → Option (List Char × List Char)
  | [] => none
  | c :: rest =>
    if c = '>' then some ([], rest)
    else (splitAtGt rest).map (fun p => (c :: p.1, p.2))

/-- Models `re.sub(r'<[^>]+>', ' ', text)` (line 53 of the source): each
leftmost `<`…`>` span with a non-empty interior is replaced by one space.
`<>` does not match because `[^>]+` needs at least one character. -/
def removeTagsF : Nat → List Char → List Char
  | 0, l => l
  | _ + 1, [] => []
  | n + 1, c :: rest =>
    if c = '<' then
      match splitAtGt rest with
      | some p => if p.1 = [] then c :: removeTagsF n rest else ' ' :: removeTagsF n p.2
      | none => c :: removeTagsF n rest
    else c :: removeTagsF n rest

/-- Character class of the URL regex on line 56 of the source:
`[a-zA-Z]|[0-9]|[$-_@.&+]|[!*(),]|%[0-9a-fA-F][0-9a-fA-F]`, where `[$-_]` is
the ASCII range from `$` to `_`.  The `%hh` alternative adds no characters
beyond the single-character alternatives, so the repeated group matches
exactly the runs of this class. -/
def urlChar (c : Char) : Bool :=
  c.isAlpha || c.isDigit || ('$' ≤ c && c ≤ '_') || c = '@' || c = '.' || c = '&' ||
    c = '+' || c = '!' || c = '*' || c = '(' || c = ')' || c = ','

/-- Match attempt of `http[s]?://(urlChar)+` at the head of the list, returning
the remainder after the match. -/
def matchUrlAt (l : List Char) : Option (List Char) :=
  let tail :=
    if isPre "https://".data l then some (l.drop 8)
    else if isPre "http://".data l then some (l.drop 7)
    else none
  match tail with
  | none => none
  | some rest =>
    let run := rest.takeWhile urlChar
    if run = [] then none else some (rest.drop run.length)

/-- Models `re.sub` of the URL pattern (line 56 of the source) with a single
space as replacement. -/
def removeUrlsF : Nat → List Char → List Char
  | 0, l => l
  | _ + 1, [] => []
  | n + 1, c :: rest =>
    match matchUrlAt (c :: rest) with
    | some after => ' ' :: removeUrlsF n after
    | none => c :: removeUrlsF n rest

/-- Local-part class `[A-Za-z0-9._%+-]` of the email regex on line 59. -/
def localChar (c : Char) : Bool :=
  c.isAlphanum || c = '.' || c = '_' || c = '%' || c = '+' || c = '-'

/-- Domain class `[A-Za-z0-9.-]` of the email regex on line 59. -/
def domainChar (c : Char) : Bool :=
  c.isAlphanum || c = '.' || c = '-'

/-- Class `[A-Z|a-z]` of the email regex on line 59 (it literally contains the
bar character). -/
def letterBar (c : Char) : Bool :=
  ('A' ≤ c && c ≤ 'Z') || c = '|' || ('a' ≤ c && c ≤ 'z')

/-- Word-boundary test after a match whose final character has word-ness
`lastW`, with `rest` the remaining input. -/
def bAfter (lastW : Bool) (rest : List Char) : Bool :=
  lastW != wordAt rest

/-- Backtracking over the trailing `[A-Z|a-z]{2,}\b` of the email regex:
`tail` is the input after the matched dot, and the `Nat` argument is the
number of letters currently tried (greedy, counting down to 2).  Returns the
word-ness of the last matched character and the remainder after the match. -/
def tryJ (tail : List Char) : Nat → Option (Bool × List Char)
  | 0 => none
  | 1 => none
  | j + 2 =>
    let lastC := tail.getD (j + 1) ' '
    let lw := isWordChar lastC
    if bAfter lw (tail.drop (j + 2)) then some (lw, tail.drop (j + 2))
    else tryJ tail (j + 1)

/-- Backtracking over the domain `[A-Za-z0-9.-]+\.` of the email regex:
`rest` is the input after the `@`, and the `Nat` argument is the currently
tried domain length (greedy, counting down to 1).  A candidate length `d`
works when `rest` has a literal `.` at index `d` and the trailing letters and
word boundary succeed after it. -/
def tryK (rest : List Char) : Nat → Option (Bool × List Char)
  | 0 => none
  | k + 1 =>
    if rest.getD (k + 1) ' ' = '.' then
      let tail := rest.drop (k + 2)
      match tryJ tail (tail.takeWhile letterBar).length with
      | some r => some r
      | none => tryK rest k
    else tryK rest k

/-- Match attempt of the whole email regex
`\b[A-Za-z0-9._%+-]+@[A-Za-z0-9.-]+\.[A-Z|a-z]{2,}\b` at the head of `l`,
where `pw` is the word-ness of the character preceding `l` (false at the
start of the string).  The local part needs no backtracking because `@` is
not in its class, so the greedy run is forced. -/
def matchEmail (pw : Bool) (l : List Char) : Option (Bool × List Char) :=
  let locRun := l.takeWhile localChar
  if locRun = [] then none
  else if pw = isWordChar (locRun.headD ' ') then none
  else if (l.drop locRun.length).headD ' ' = '@' then
    let rest := (l.drop locRun.length).tail
    tryK rest (rest.takeWhile domainChar).length
  else none

/-- Models `re.sub` of the email-address pattern (line 59 of the source) with
a single space as replacement, threading the word-ness of the previous
character for the leading `\b`. -/
def removeEmailsF : Nat → Bool → List Char → List Char
  | 0, _, l => l
  | _ + 1, _, [] => []
  | n + 1, pw, c :: rest =>
    match matchEmail pw (c :: rest) with
    | some r => ' ' :: removeEmailsF n r.1 r.2
    | none => c :: removeEmailsF n (isWordChar c) rest

/-- Models `re.sub(r'\s+', ' ', text)` (lines 62 and 76 of the source): every
maximal whitespace run becomes a single space. -/
def collapse : List Char → List Char
  | [] => []
  | c :: rest =>
    if isPySpace c then
      if startsSpace rest then collapse rest else ' ' :: collapse rest
    else c :: collapse rest

/-- Case-insensitive prefix test: the pattern is given in lowercase and each
input character is lowered before comparison (Python `re.IGNORECASE` on the
ASCII patterns of line 65). -/
def ciPre : List Char → List Char → Bool
  | [], _ => true
  | _ :: _, [] => false
  | p :: ps, c :: cs => c.toLower = p && ciPre ps cs

/-- Does one of the boilerplate alternatives of line 65 of the source,
`(unsubscribe|privacy policy|terms of service|\bsent from\b|\bbest regards\b|\bsincerely\b)`,
match at the head of `l`?  `pw` is the word-ness of the preceding character.
The three `\b…\b` alternatives begin and end with word characters, so their
boundaries amount to: previous character not a word character, and the
character following the pattern not a word character. -/
def markerAt (pw : Bool) (l : List Char) : Bool :=
  ciPre "unsubscribe".data l ||
  ciPre "privacy policy".data l ||
  ciPre "terms of service".data l ||
  (!pw && ciPre "sent from".data l && !(wordAt (l.drop 9))) ||
  (!pw && ciPre "best regards".data l && !(wordAt (l.drop 12))) ||
  (!pw && ciPre "sincerely".data l && !(wordAt (l.drop 9)))

/-- Models `re.sub(r'(unsubscribe|…|\bsincerely\b).*', '', text, re.IGNORECASE)`
(line 65 of the source).  When this substitution runs, the text has already
been whitespace-collapsed (line 62) and therefore contains no newline, so the
trailing `.*` consumes everything from the leftmost marker to the end of the
string: the result is the prefix before the leftmost marker match. -/
def removeBoilAux : Bool → List Char → List Char
  | _, [] => []
  | pw, c :: rest =>
    if markerAt pw (c :: rest) then [] else c :: removeBoilAux (isWordChar c) rest

/-- Scan deciding whether a boilerplate marker (in the sense of `markerAt`)
occurs anywhere in the list, threading word-ness like `removeBoilAux`. -/
def hasMarkerAux : Bool → List Char → Bool
  | _, [] => false
  | pw, c :: rest => markerAt pw (c :: rest) || hasMarkerAux (isWordChar c) rest

/-- Does a boilerplate marker occur anywhere in the list (scanned from the
start of the string)? -/
def containsMarker (l : List Char) : Bool :=
  hasMarkerAux false l

/-- Python `text.split('\n')` (line 68 of the source). -/
def splitOnNl : List Char → List (List Char)
  | [] => [[]]
  | c :: rest =>
    if c = '\n' then [] :: splitOnNl rest
    else
      match splitOnNl rest with
      | [] => [[c]]
      | g :: gs => (c :: g) :: gs

/-- Python `' '.join(lines)` (line 70 of the source). -/
def joinSpace : List (List Char) → List Char
  | [] => []
  | g :: gs =>
    match gs with
    | [] => g
    | _ :: _ => g ++ ' ' :: joinSpace gs

/-- Character class kept by `re.sub(r'[^\w\s.,!?;:\-\'"()]', ' ', text)`
(line 73 of the source). -/
def keepChar (c : Char) : Bool :=
  isWordChar c || isPySpace c || c = '.' || c = ',' || c = '!' || c = '?' ||
    c = ';' || c = ':' || c = '-' || c = '\'' || c = '"' || c = '(' || c = ')'

/-- Models the special-character substitution of line 73: every character
outside `keepChar` becomes a space. -/
def charStrip (l : List Char) : List Char :=
  l.map (fun c => if keepChar c then c else ' ')

/-- Drop trailing whitespace (the right half of Python `str.strip()`),
defined head-first to stay structurally recursive. -/
def dropTrailSpace : List Char → List Char
  | [] => []
  | c :: rest =>
    let r := dropTrailSpace rest
    if r = [] && isPySpace c then [] else c :: r

/-- Python `str.strip()` for ASCII whitespace. -/
def pyStrip (l : List Char) : List Char :=
  dropTrailSpace (l.dropWhile isPySpace)

/-- Last-is-whitespace test (mirror of `startsSpace` at the end of the
list). -/
def endsSpace : List Char → Bool
  | [] => false
  | c :: rest => if rest.isEmpty then isPySpace c else endsSpace rest

/-- No two adjacent whitespace characters occur in the list (the shape left
by `collapse`). -/
def noTwoSpaces : List Char → Bool
  | [] => true
  | c :: rest => !(isPySpace c && startsSpace rest) && noTwoSpaces rest

/-- The ellipsis marker appended by the 500-character cap (line 80). -/
def dots : List Char := ['.', '.', '.']

/-- Models lines 79–80 of the source: texts longer than 500 characters are cut
to their first 500 characters with `"..."` appended. -/
def capAt500 (l : List Char) : List Char :=
  if 500 < l.length then l.take 500 ++ dots else l

/-- `unescapeF` with its fuel instantiated to the input length (which bounds
the number of scanning steps, each consuming at least one character). -/
def unescape (l : List Char) : List Char :=
  unescapeF l.length l

/-- `removeTagsF` with sufficient fuel. -/
def removeTags (l : List Char) : List Char :=
  removeTagsF l.length l

/-- `removeUrlsF` with sufficient fuel. -/
def removeUrls (l : List Char) : List Char :=
  removeUrlsF l.length l

/-- `removeEmailsF` with sufficient fuel, starting at a string boundary (the
character before the start of the string is not a word character). -/
def removeEmails (l : List Char) : List Char :=
  removeEmailsF l.length false l

/-- Stages 2–8 of `clean_email_body` (lines 50–70 of the source), in source
order: entity decoding, tag / URL / email removal, whitespace collapsing,
boilerplate truncation and quoted-line removal. -/
def cleanStage7 (l : List Char) : List Char :=
  joinSpace
    ((splitOnNl (removeBoilAux false
        (collapse (removeEmails (removeUrls (removeTags (unescape l))))))).filter
      (fun line => !startsWithGt (pyStrip line)))

/-- The whole cleaning pipeline of `clean_email_body` (lines 47–82 of the
source) on a list of characters: stages 2–8, then the special-character
substitution of line 73, the final collapse-and-strip of line 76 and the
500-character cap of lines 79–80. -/
def cleanChars (l : List Char) : List Char :=
  capAt500 (pyStrip (collapse (charStrip (cleanStage7 l))))

/-- `SemanticSearchEngine.clean_email_body` (lines 33–82 of the source); the
`if not body` guard of line 43 becomes the test for the empty string. -/
def clean_email_body (s : String) : String :=
  if s = "" then "" else ⟨cleanChars s.data⟩

/-- Python `str.strip()` at the `String` level. -/
def pyStripS (s : String) : String :=
  ⟨pyStrip s.data⟩

/-- A document as consumed by `create_email_embedding` (lines 84–111 of the
source): a dictionary with a `subject` key (defaulted to the empty string), a
`body` key, and an optional `full_body` key that takes precedence over
`body`. -/
structure Email where
  subject : String
  body : String
  full_body : Option String
  deriving DecidableEq, Repr

/-- The combined text built on lines 95–103 of the source:
`f"{subject} {subject} {cleaned_body}"` where `subject` is the
whitespace-stripped subject and `cleaned_body` is
`clean_email_body(full_body or body)`. -/
def combined_text (e : Email) : String :=
  pyStripS e.subject ++ " " ++ pyStripS e.subject ++ " " ++
    clean_email_body (e.full_body.getD e.body)

/-- The text actually sent to the embedding model for a document, after the
empty-content guard of lines 106–107 of the source. -/
def text_to_embed (e : Email) : String :=
  if pyStripS (combined_text e) = "" then "empty email" else combined_text e

/-- Modelled from the spec: §4.2 describes the document-embedding text as
"concatenate normalized subjectText twice with normalized bodyText", i.e. the
subject passes through the same normalization pipeline as the body.  This
definition follows the spec's words (with the source's body selection) and is
compared against `combined_text`, which is what the source builds. -/
def combined_text_specC7 (e : Email) : String :=
  clean_email_body e.subject ++ " " ++ clean_email_body e.subject ++ " " ++
    clean_email_body (e.full_body.getD e.body)

/-- Python slicing `l[:k]` for an arbitrary integer `k`: a non-negative `k`
keeps the first `k` elements, a negative `k` drops the last `|k|` elements
(clamping at the empty list). -/
def pySliceTo {α : Type} (l : List α) (k : Int) : List α :=
  if 0 ≤ k then l.take k.toNat else l.take (l.length - (-k).toNat)

/-- Insertion step of a stable descending sort on score pairs: the new
element (which precedes the list elements in the original order) is placed
before the first element whose score is not larger, so equal scores keep the
original order. -/
def insertDesc {α : Type} (p : α × ℚ) : List (α × ℚ) → List (α × ℚ)
  | [] => [p]
  | q :: rest => if q.2 ≤ p.2 then p :: q :: rest else q :: insertDesc p rest

/-- Stable descending sort by score, modelling Python
`list.sort(key=lambda x: x[1], reverse=True)` (lines 184 and 188 of the
source), which is a stable sort on the reversed score order. -/
def sortDesc {α : Type} : List (α × ℚ) → List (α × ℚ)
  | [] => []
  | p :: rest => insertDesc p (sortDesc rest)

/-- `SemanticSearchEngine.semantic_search` (lines 148–191 of the source) with
the already-resolved threshold, abstracted over the per-document similarity
scores: `sim e` is the cosine similarity the model assigns to document `e`
for the query at hand (the embedding model is an external collaborator, so
scores are opaque inputs to the ranking logic).  Mirrors the source exactly:
empty corpus short-circuits to `[]`; documents scoring at least the
threshold are sorted descending (stable) and cut to `top_k` Python-style;
if none qualifies, the whole corpus is sorted and the single best-scoring
pair is returned regardless of `top_k`. -/
def semantic_search {α : Type} (sim : α → ℚ) (emails : List α) (top_k : Int)
    (threshold : ℚ) : List (α × ℚ) :=
  if emails.isEmpty then []
  else
    let email_scores := emails.map (fun e => (e, sim e))
    let filtered_scores := email_scores.filter (fun p => decide (threshold ≤ p.2))
    if filtered_scores.isEmpty then (sortDesc email_scores).take 1
    else pySliceTo (sortDesc filtered_scores) top_k

/-- `SemanticSearchEngine.search_with_threshold` (lines 193–212 of the
source): an inner `semantic_search` with `top_k = len(emails)` and the
engine's default threshold (`min_threshold` is not passed, so line 165
resolves it to `self.similarity_threshold`, here the `default_t` argument),
then an outer filter by the caller's `threshold` and a Python-style cut to
`top_k`. -/
def search_with_threshold {α : Type} (sim : α → ℚ) (default_t : ℚ)
    (emails : List α) (threshold : ℚ) (top_k : Int) : List (α × ℚ) :=
  let results := semantic_search sim emails (emails.length : Int) default_t
  pySliceTo (results.filter (fun p => decide (threshold ≤ p.2))) top_k

/-- The sequence of texts `semantic_search` passes to `model.encode`, in
order (lines 161–171 of the source): none when the corpus is empty (the
guard on line 161 returns before any embedding call); otherwise the query
(line 168, embedded verbatim by `create_query_embedding`) followed by each
document's combined text (line 171 via `create_email_embedding`). -/
def embed_trace (query : String) (emails : List Email) : List String :=
  if emails.isEmpty then [] else query :: emails.map text_to_embed

/-- Finite-or-special value modelling an IEEE-754 double for the zero-norm
analysis: exact rationals for finite values, a signed infinity, and NaN.
Arithmetic on finite values is exact (the concrete vectors used here incur
no rounding); the special values follow IEEE 754: 0/0 and any operation on
NaN give NaN, division of a non-zero value by zero gives a signed infinity,
and every ordered comparison with NaN is false. -/
inductive FVal where
  | fin (q : ℚ)
  | inf (pos : Bool)
  | nan
  deriving DecidableEq, Repr

/-- IEEE addition on `FVal`: exact on finite values, NaN-propagating,
opposite infinities give NaN. -/
def FVal.addF : FVal → FVal → FVal
  | fin a, fin b => fin (a + b)
  | nan, _ => nan
  | _, nan => nan
  | inf p, inf q2 => if p = q2 then inf p else nan
  | inf p, fin _ => inf p
  | fin _, inf p => inf p

/-- IEEE multiplication on `FVal`: exact on finite values, NaN-propagating,
infinity times zero gives NaN. -/
def FVal.mulF : FVal → FVal → FVal
  | fin a, fin b => fin (a * b)
  | nan, _ => nan
  | _, nan => nan
  | inf p, inf q2 => inf (p == q2)
  | inf p, fin a => if a = 0 then nan else inf (p == decide (0 < a))
  | fin a, inf p => if a = 0 then nan else inf (p == decide (0 < a))

/-- The filter comparison `score >= threshold` of line 180 on an IEEE value:
false for NaN (every ordered comparison with NaN is false), the sign for an
infinity, and the exact comparison for finite values. -/
def FVal.geB (threshold : ℚ) : FVal → Bool
  | fin a => decide (threshold ≤ a)
  | inf p => p
  | nan => false

/-- Largest `i` at most the second argument with `i * i` at most the first
argument (a structurally recursive integer square root, adequate for the
small concrete vectors used here). -/
def sqrtAux : Nat → Nat → Nat
  | _, 0 => 0
  | n, i + 1 => if (i + 1) * (i + 1) ≤ n then i + 1 else sqrtAux n i

/-- Integer square root by downward search. -/
def natSqrtL (n : Nat) : Nat :=
  sqrtAux n n

/-- `np.linalg.norm(embedding)` (lines 111 and 124 of the source): the
Euclidean norm of the provider's vector, for integer-component vectors whose
norm is itself an integer — enough for the degenerate zero vector (norm
exactly 0) and concrete Pythagorean vectors, and exact in IEEE doubles.
`none` marks an irrational norm, outside the exact model (the source itself
never fails here). -/
def pyNorm (v : List ℤ) : Option ℤ :=
  let s := (v.map (fun a => a * a)).sum
  let r := natSqrtL s.toNat
  if decide ((r : ℤ) * r = s) then some (r : ℤ) else none

/-- One component of `embedding / np.linalg.norm(embedding)` (lines 111 and
124 of the source) as IEEE division of the exact component by the (possibly
zero) norm: 0/0 = NaN, x/0 = ±∞ for x ≠ 0, exact otherwise.  The source has
no zero-norm guard; the RuntimeWarning the zero cases raise is suppressed by
the `warnings.filterwarnings("ignore")` of line 14. -/
def ieeeDiv (a n : ℤ) : FVal :=
  if n = 0 then (if a = 0 then FVal.nan else FVal.inf (decide (0 < a)))
  else FVal.fin ((a : ℚ) / (n : ℚ))

/-- Lines 110-111 and 123-124 of the source: the whole normalized embedding,
elementwise. -/
def normalizeVec (v : List ℤ) : Option (List FVal) :=
  (pyNorm v).map (fun n => v.map (fun a => ieeeDiv a n))

/-- `np.dot` of two equal-length vectors (line 144 of the source): the sum
of elementwise products over finite-or-special values. -/
def fdot : List FVal → List FVal → FVal
  | a :: as, b :: bs => FVal.addF (FVal.mulF a b) (fdot as bs)
  | _, _ => FVal.fin 0

/-- The similarity score `semantic_search` computes for one document (lines
168-177 of the source): normalize the document's and the query's provider
vectors, then take their dot product. -/
def scoreOf (doc query : List ℤ) : Option FVal :=
  match normalizeVec doc, normalizeVec query with
  | some dv, some qv => some (fdot dv qv)
  | _, _ => none

/-- `semantic_search` (lines 161-191 of the source) specialised to a
one-document corpus, with the score taken in the IEEE value domain and the
line-180 filter comparison false on NaN: if the single score passes the
threshold, the thresholded branch sorts the one-element list (trivially
itself) and slices it by `top_k`; otherwise the fallback of lines 182-185
returns that one pair regardless of `top_k`.  The specialisation to a
singleton corpus avoids modelling Python's sort on NaN keys, which a
one-element list never exercises. -/
def semantic_search_single {α : Type} (score : FVal) (threshold : ℚ) (doc : α)
    (top_k : Int) : List (α × FVal) :=
  if FVal.geB threshold score then pySliceTo [(doc, score)] top_k
  else [(doc, score)]

/-! ## Properties of the stable descending sort -/

theorem insertDesc_perm {α : Type} (p : α × ℚ) (l : List (α × ℚ)) :
    List.Perm (insertDesc p l) (p :: l) := by
  induction l with
  | nil => simp [insertDesc]
  | cons q rest ih =>
    by_cases h : q.2 ≤ p.2
    · simp [insertDesc, h]
    · simp only [insertDesc, if_neg h]
      exact (ih.cons q).trans (List.Perm.swap p q rest)

theorem sortDesc_perm {α : Type} (l : List (α × ℚ)) :
    List.Perm (sortDesc l) l := by
  induction l with
  | nil => simp [sortDesc]
  | cons p rest ih =>
    exact (insertDesc_perm p (sortDesc rest)).trans (ih.cons p)

theorem sortDesc_length {α : Type} (l : List (α × ℚ)) :
    (sortDesc l).length = l.length :=
  (sortDesc_perm l).length_eq

theorem sortDesc_mem {α : Type} {l : List (α × ℚ)} {p : α × ℚ} :
    p ∈ sortDesc l ↔ p ∈ l :=
  (sortDesc_perm l).mem_iff

theorem insertDesc_sorted {α : Type} (p : α × ℚ) {l : List (α × ℚ)}
    (hl : l.Pairwise (fun a b => b.2 ≤ a.2)) :
    (insertDesc p l).Pairwise (fun a b => b.2 ≤ a.2) := by
  induction l with
  | nil => simp [insertDesc]
  | cons q rest ih =>
    rw [List.pairwise_cons] at hl
    obtain ⟨hq, hrest⟩ := hl
    by_cases h : q.2 ≤ p.2
    · simp only [insertDesc, if_pos h]
      refine List.Pairwise.cons ?_ (List.Pairwise.cons hq hrest)
      intro b hb
      rcases List.mem_cons.1 hb with rfl | hb
      · exact h
      · exact le_trans (hq b hb) h
    · simp only [insertDesc, if_neg h]
      refine List.Pairwise.cons ?_ (ih hrest)
      intro b hb
      rcases List.mem_cons.1 ((insertDesc_perm p rest).mem_iff.1 hb) with rfl | hb
      · exact le_of_lt (not_le.1 h)
      · exact hq b hb

theorem sortDesc_sorted {α : Type} (l : List (α × ℚ)) :
    (sortDesc l).Pairwise (fun a b => b.2 ≤ a.2) := by
  induction l with
  | nil => simp [sortDesc]
  | cons p rest ih => exact insertDesc_sorted p ih

theorem insertDesc_filter {α : Type} (p : α × ℚ) (l : List (α × ℚ)) (v : ℚ) :
    (insertDesc p l).filter (fun q => decide (q.2 = v)) =
      ((p :: l).filter (fun q => decide (q.2 = v))) := by
  induction l with
  | nil => simp [insertDesc]
  | cons q rest ih =>
    by_cases h : q.2 ≤ p.2
    · simp [insertDesc, h]
    · have hlt : p.2 < q.2 := not_le.1 h
      rw [insertDesc, if_neg h]
      by_cases hq : q.2 = v <;> by_cases hp : p.2 = v
      · exact absurd (hp.trans hq.symm) (ne_of_lt hlt)
      all_goals simp [List.filter_cons, ih, hq, hp]

theorem sortDesc_filter {α : Type} (l : List (α × ℚ)) (v : ℚ) :
    (sortDesc l).filter (fun q => decide (q.2 = v)) =
      l.filter (fun q => decide (q.2 = v)) := by
  induction l with
  | nil => simp [sortDesc]
  | cons p rest ih =>
    rw [sortDesc, insertDesc_filter, List.filter_cons, List.filter_cons, ih]

/-! ## Membership in search results -/

theorem pySliceTo_subset {α : Type} {l : List α} {k : Int} {p : α}
    (hp : p ∈ pySliceTo l k) : p ∈ l := by
  unfold pySliceTo at hp
  by_cases h : 0 ≤ k
  · rw [if_pos h] at hp; exact (List.take_sublist _ _).mem hp
  · rw [if_neg h] at hp; exact (List.take_sublist _ _).mem hp

theorem pySliceTo_nil {α : Type} (k : Int) : pySliceTo ([] : List α) k = [] := by
  unfold pySliceTo
  by_cases h : 0 ≤ k
  · rw [if_pos h]; exact List.take_nil
  · rw [if_neg h]; exact List.take_nil

theorem mem_semantic_search {α : Type} {sim : α → ℚ} {emails : List α}
    {k : Int} {t : ℚ} {p : α × ℚ} (hp : p ∈ semantic_search sim emails k t) :
    p ∈ emails.map (fun e => (e, sim e)) := by
  unfold semantic_search at hp
  by_cases he : emails.isEmpty
  · simp [he] at hp
  · rw [if_neg he] at hp
    by_cases hf : ((emails.map fun e => (e, sim e)).filter
        (fun p => decide (t ≤ p.2))).isEmpty
    · simp only [hf, if_true] at hp
      exact sortDesc_mem.1 ((List.take_sublist _ _).mem hp)
    · simp only [hf, if_false] at hp
      exact (List.filter_sublist _).mem (sortDesc_mem.1 (pySliceTo_subset hp))

/-! ## Claim theorems -/

/-- C1 — Fallback rule: for every corpus and every threshold strictly above
every document's score, `semantic_search` returns the empty result on an
empty corpus, and on a non-empty corpus a result of exactly length one
holding a maximum-scoring document of the entire unfiltered corpus (any
`top_k`, since the source's fallback `email_scores[:1]` ignores `top_k`). -/
theorem semantic_search_fallback {α : Type} (sim : α → ℚ) (emails : List α)
    (k : Int) (t : ℚ) (hall : ∀ e ∈ emails, sim e < t) :
    (emails = [] → semantic_search sim emails k t = []) ∧
    (emails ≠ [] → ∃ b ∈ emails, semantic_search sim emails k t = [(b, sim b)] ∧
      ∀ e ∈ emails, sim e ≤ sim b) := by
  constructor
  · rintro rfl; rfl
  · intro hne
    have hfilter : (emails.map fun e => (e, sim e)).filter
        (fun p => decide (t ≤ p.2)) = [] := by
      rw [List.filter_eq_nil_iff]
      intro p hp
      obtain ⟨e, he, rfl⟩ := List.mem_map.1 hp
      simp only [decide_eq_true_eq]
      exact not_le.2 (hall e he)
    have hes : (emails.map fun e => (e, sim e)) ≠ [] := by
      simp [List.map_eq_nil_iff, hne]
    have hresult : semantic_search sim emails k t =
        (sortDesc (emails.map fun e => (e, sim e))).take 1 := by
      simp only [semantic_search]
      rw [if_neg (by simp [List.isEmpty_iff, hne]), hfilter]
      rfl
    obtain ⟨h, rest, hsort⟩ : ∃ h rest,
        sortDesc (emails.map fun e => (e, sim e)) = h :: rest := by
      cases hs : sortDesc (emails.map fun e => (e, sim e)) with
      | nil =>
        have hlen : (emails.map fun e => (e, sim e)).length = 0 := by
          rw [← sortDesc_length, hs]; rfl
        exact absurd (List.length_eq_zero.1 hlen) hes
      | cons h rest => exact ⟨h, rest, rfl⟩
    have hmem : h ∈ emails.map fun e => (e, sim e) :=
      sortDesc_mem.1 (hsort ▸ List.mem_cons_self h rest)
    obtain ⟨b, hb, hbe⟩ := List.mem_map.1 hmem
    refine ⟨b, hb, ?_, ?_⟩
    · rw [hresult, hsort, ← hbe]
      rfl
    · intro e he
      have hmax : ∀ p ∈ sortDesc (emails.map fun e => (e, sim e)), p.2 ≤ h.2 := by
        intro p hp
        rw [hsort] at hp
        rcases List.mem_cons.1 hp with rfl | hp
        · exact le_refl _
        · exact (List.pairwise_cons.1 (hsort ▸ sortDesc_sorted
            (emails.map fun e => (e, sim e)))).1 p hp
      have : (e, sim e) ∈ sortDesc (emails.map fun e => (e, sim e)) :=
        sortDesc_mem.2 (List.mem_map.2 ⟨e, he, rfl⟩)
      have := hmax _ this
      rw [← hbe] at this
      exact this

/-- Witness for C1 at a concrete corpus: one document scoring 0 against
threshold 1. -/
theorem semantic_search_fallback_wit :
    (∀ e ∈ ["doc"], (fun _ : String => (0 : ℚ)) e < 1) ∧
    (((["doc"] : List String) = [] →
        semantic_search (fun _ : String => (0 : ℚ)) ["doc"] 5 1 = []) ∧
      ((["doc"] : List String) ≠ [] → ∃ b ∈ ["doc"],
        semantic_search (fun _ : String => (0 : ℚ)) ["doc"] 5 1 =
          [(b, (fun _ : String => (0 : ℚ)) b)] ∧
        ∀ e ∈ ["doc"], (fun _ : String => (0 : ℚ)) e ≤ (fun _ : String => (0 : ℚ)) b)) :=
  ⟨by decide, semantic_search_fallback (fun _ : String => (0 : ℚ)) ["doc"] 5 1 (by decide)⟩

/-- C2 — counterexample, refuting both halves of the claim.  With
`top_k = 0`, a non-empty corpus and a threshold above every score, the
source still runs the fallback (`email_scores[:1]` on line 185 ignores
`top_k`), so the result is not empty.  And a negative `top_k` does not
behave as `top_k = 0`: at `top_k = -1` with two qualifying tied documents,
the slice of line 191 keeps the first of them instead of yielding the empty
result. -/
theorem semantic_search_topk_nonpos_cex :
    semantic_search (fun _ : String => (0 : ℚ)) ["doc"] 0 1 ≠ [] ∧
    semantic_search (fun _ : String => (1 : ℚ)) ["a", "b"] (-1) 0 = [("a", 1)] := by
  constructor <;> decide

/-- C2 — amended: `top_k = 0` yields the empty result only when the
thresholded set is non-empty; a negative `top_k` is not treated as 0 but
slices Python-style, keeping all but the last `|top_k|` entries of the
thresholded ranking; and when the thresholded set is empty but the corpus is
not, the fallback returns exactly one result for every `top_k`. -/
theorem semantic_search_topk_slicing {α : Type} (sim : α → ℚ) (emails : List α)
    (t : ℚ) (k : Int) :
    (k = 0 → ((emails.map fun e => (e, sim e)).filter
        (fun p => decide (t ≤ p.2))) ≠ [] →
      semantic_search sim emails k t = []) ∧
    (k < 0 → ((emails.map fun e => (e, sim e)).filter
        (fun p => decide (t ≤ p.2))) ≠ [] →
      semantic_search sim emails k t ++
          (sortDesc ((emails.map fun e => (e, sim e)).filter
            (fun p => decide (t ≤ p.2)))).drop
            (((emails.map fun e => (e, sim e)).filter
              (fun p => decide (t ≤ p.2))).length - (-k).toNat) =
        sortDesc ((emails.map fun e => (e, sim e)).filter
          (fun p => decide (t ≤ p.2))) ∧
      (semantic_search sim emails k t).length =
        ((emails.map fun e => (e, sim e)).filter
          (fun p => decide (t ≤ p.2))).length - (-k).toNat) ∧
    (emails ≠ [] → ((emails.map fun e => (e, sim e)).filter
        (fun p => decide (t ≤ p.2))) = [] →
      (semantic_search sim emails k t).length = 1) := by
  have hne_of_f : ((emails.map fun e => (e, sim e)).filter
      (fun p => decide (t ≤ p.2))) ≠ [] → emails ≠ [] := by
    rintro hf rfl; exact hf rfl
  refine ⟨?_, ?_, ?_⟩
  · rintro rfl hf
    simp only [semantic_search]
    rw [if_neg (by simp [List.isEmpty_iff, hne_of_f hf]),
      if_neg (by simp [List.isEmpty_iff, hf])]
    unfold pySliceTo
    rw [if_pos le_rfl]
    rfl
  · intro hk hf
    simp only [semantic_search]
    rw [if_neg (by simp [List.isEmpty_iff, hne_of_f hf]),
      if_neg (by simp [List.isEmpty_iff, hf])]
    unfold pySliceTo
    rw [if_neg (not_le.2 hk)]
    constructor
    · rw [sortDesc_length]
      exact List.take_append_drop _ _
    · rw [List.length_take, sortDesc_length]
      exact Nat.min_eq_left (Nat.sub_le _ _)
  · intro hne hf
    simp only [semantic_search]
    rw [if_neg (by simp [List.isEmpty_iff, hne]), hf]
    simp only [List.isEmpty_nil, if_true, List.length_take]
    have : sortDesc (emails.map fun e => (e, sim e)) ≠ [] := by
      intro hcon
      have hlen : (emails.map fun e => (e, sim e)).length = 0 := by
        rw [← sortDesc_length, hcon]; rfl
      exact hne (by simpa [List.map_eq_nil_iff] using List.length_eq_zero.1 hlen)
    cases hs : sortDesc (emails.map fun e => (e, sim e)) with
    | nil => exact absurd hs this
    | cons h rest => simp [hs]

/-- Witness for C2's amended statement: `top_k = -1` on two qualifying
documents returns the sorted thresholded ranking minus its last element —
one entry, the first of the two, not zero entries. -/
theorem semantic_search_topk_slicing_wit :
    ((-1 : Int) < 0) ∧
    ((([0, 1].map fun e : Int => (e, (fun _ : Int => (1 : ℚ)) e)).filter
        (fun p => decide ((0 : ℚ) ≤ p.2))) ≠ []) ∧
    (semantic_search (fun _ : Int => (1 : ℚ)) [0, 1] (-1) 0 ++
        (sortDesc (([0, 1].map fun e : Int => (e, (fun _ : Int => (1 : ℚ)) e)).filter
          (fun p => decide ((0 : ℚ) ≤ p.2)))).drop
          ((([0, 1].map fun e : Int => (e, (fun _ : Int => (1 : ℚ)) e)).filter
            (fun p => decide ((0 : ℚ) ≤ p.2))).length - (-(-1 : Int)).toNat) =
      sortDesc (([0, 1].map fun e : Int => (e, (fun _ : Int => (1 : ℚ)) e)).filter
        (fun p => decide ((0 : ℚ) ≤ p.2))) ∧
      (semantic_search (fun _ : Int => (1 : ℚ)) [0, 1] (-1) 0).length =
        (([0, 1].map fun e : Int => (e, (fun _ : Int => (1 : ℚ)) e)).filter
          (fun p => decide ((0 : ℚ) ≤ p.2))).length - (-(-1 : Int)).toNat) :=
  ⟨by decide, by decide,
    (semantic_search_topk_slicing (fun _ : Int => (1 : ℚ)) [0, 1] 0 (-1)).2.1
      (by decide) (by decide)⟩

/-- C3 — when the thresholded set is non-empty and `top_k` is a non-negative
count, the result is sorted by descending score, has length at most `top_k`,
and is stable: for every score value, the result's entries with that score
form a sublist (hence in original corpus order) of the corpus's entries with
that score. -/
theorem semantic_search_sorted_stable {α : Type} (sim : α → ℚ) (emails : List α)
    (t : ℚ) (k : Nat)
    (hf : ((emails.map fun e => (e, sim e)).filter
      (fun p => decide (t ≤ p.2))) ≠ []) :
    (semantic_search sim emails (k : Int) t).Pairwise (fun p q => q.2 ≤ p.2) ∧
    (semantic_search sim emails (k : Int) t).length ≤ k ∧
    ∀ v : ℚ, List.Sublist
      ((semantic_search sim emails (k : Int) t).filter (fun p => decide (p.2 = v)))
      ((emails.map fun e => (e, sim e)).filter (fun p => decide (p.2 = v))) := by
  have hne : emails ≠ [] := by rintro rfl; exact hf rfl
  have hresult : semantic_search sim emails (k : Int) t =
      (sortDesc ((emails.map fun e => (e, sim e)).filter
        (fun p => decide (t ≤ p.2)))).take k := by
    unfold semantic_search
    rw [if_neg (by simp [List.isEmpty_iff, hne]),
      if_neg (by simp [List.isEmpty_iff, hf])]
    unfold pySliceTo
    rw [if_pos (by exact_mod_cast Nat.zero_le k)]
    norm_num
  refine ⟨?_, ?_, ?_⟩
  · rw [hresult]
    exact List.Pairwise.sublist (List.take_sublist _ _) (sortDesc_sorted _)
  · rw [hresult, List.length_take]
    exact Nat.min_le_left _ _
  · intro v
    rw [hresult]
    have h1 : List.Sublist
        (((sortDesc ((emails.map fun e => (e, sim e)).filter
          (fun p => decide (t ≤ p.2)))).take k).filter (fun p => decide (p.2 = v)))
        ((sortDesc ((emails.map fun e => (e, sim e)).filter
          (fun p => decide (t ≤ p.2)))).filter (fun p => decide (p.2 = v))) :=
      (List.take_sublist _ _).filter _
    rw [sortDesc_filter] at h1
    exact h1.trans (((List.filter_sublist _).filter _))

/-- Witness for C3 at a concrete corpus of three documents with a tie. -/
theorem semantic_search_sorted_stable_wit :
    ((([3, 7, 3].map fun e : Int => (e, (fun x : Int => (x : ℚ)) e)).filter
        (fun p => decide ((1 : ℚ) ≤ p.2))) ≠ []) ∧
    ((semantic_search (fun x : Int => (x : ℚ)) [3, 7, 3] ((2 : Nat) : Int) 1).Pairwise
        (fun p q => q.2 ≤ p.2) ∧
      (semantic_search (fun x : Int => (x : ℚ)) [3, 7, 3] ((2 : Nat) : Int) 1).length ≤ 2 ∧
      ∀ v : ℚ, List.Sublist
        ((semantic_search (fun x : Int => (x : ℚ)) [3, 7, 3] ((2 : Nat) : Int) 1).filter
          (fun p => decide (p.2 = v)))
        (([3, 7, 3].map fun e : Int => (e, (fun x : Int => (x : ℚ)) e)).filter
          (fun p => decide (p.2 = v)))) :=
  ⟨by decide, semantic_search_sorted_stable (fun x : Int => (x : ℚ)) [3, 7, 3] 1 2 (by decide)⟩

/-- C9 — searching an empty corpus returns the empty result and the trace of
texts sent to the embedding model is empty (no provider invocation at all,
neither for the query nor for documents). -/
theorem semantic_search_empty_corpus (sim : Email → ℚ) (k : Int) (t : ℚ)
    (q : String) :
    semantic_search sim ([] : List Email) k t = [] ∧ embed_trace q [] = [] :=
  ⟨rfl, rfl⟩

/-- C10 — `search_with_threshold` gives no at-least-one-result guarantee: on
a non-empty corpus where every score is below the caller's threshold, the
outer threshold filter discards everything the inner `semantic_search` (run
with the engine default `d` and its fallback) produced, so the result is
empty. -/
theorem search_with_threshold_no_fallback {α : Type} (sim : α → ℚ) (d : ℚ)
    (emails : List α) (t : ℚ) (k : Int) (_hne : emails ≠ [])
    (hall : ∀ e ∈ emails, sim e < t) :
    search_with_threshold sim d emails t k = [] := by
  have hfilter : (semantic_search sim emails (emails.length : Int) d).filter
      (fun p => decide (t ≤ p.2)) = [] := by
    rw [List.filter_eq_nil_iff]
    intro p hp
    obtain ⟨e, he, rfl⟩ := List.mem_map.1 (mem_semantic_search hp)
    simp only [decide_eq_true_eq]
    exact not_le.2 (hall e he)
  simp only [search_with_threshold]
  rw [hfilter, pySliceTo_nil]

/-- Witness for C10: one document scoring 0, caller threshold 1, engine
default 1/10. -/
theorem search_with_threshold_no_fallback_wit :
    ((["doc"] : List String) ≠ []) ∧ (∀ e ∈ ["doc"], (fun _ : String => (0 : ℚ)) e < 1) ∧
    search_with_threshold (fun _ : String => (0 : ℚ)) (1 / 10) ["doc"] 1 10 = [] :=
  ⟨by decide, by decide,
    search_with_threshold_no_fallback (fun _ : String => (0 : ℚ)) (1 / 10) ["doc"] 1 10
      (by decide) (by decide)⟩

/-! ## Identity lemmas for the cleaning stages

Each stage of the pipeline is the identity on text that no longer contains
the characters the stage rewrites at; these lemmas drive the idempotence
analysis of C8. -/

theorem isPre_mem : ∀ (p l : List Char), isPre p l = true → ∀ c ∈ p, c ∈ l
  | [], _, _, c, hc => absurd hc (List.not_mem_nil c)
  | _ :: _, [], h, _, _ => by simp [isPre] at h
  | p :: ps, d :: ds, h, c, hc => by
    simp only [isPre, Bool.and_eq_true, decide_eq_true_eq] at h
    rcases List.mem_cons.1 hc with rfl | hc
    · exact h.1 ▸ List.mem_cons_self d ds
    · exact List.mem_cons_of_mem d (isPre_mem ps ds h.2 c hc)

theorem unescapeF_id : ∀ (n : Nat) (l : List Char), '&' ∉ l → unescapeF n l = l
  | 0, _, _ => rfl
  | _ + 1, [], _ => rfl
  | n + 1, c :: rest, h => by
    have hc : ¬ c = '&' := fun hc => h (hc ▸ List.mem_cons_self c rest)
    simp only [unescapeF, if_neg hc]
    rw [unescapeF_id n rest (fun hm => h (List.mem_cons_of_mem c hm))]

theorem unescape_id (l : List Char) (h : '&' ∉ l) : unescape l = l :=
  unescapeF_id _ _ h

theorem removeTagsF_id : ∀ (n : Nat) (l : List Char), '<' ∉ l → removeTagsF n l = l
  | 0, _, _ => rfl
  | _ + 1, [], _ => rfl
  | n + 1, c :: rest, h => by
    have hc : ¬ c = '<' := fun hc => h (hc ▸ List.mem_cons_self c rest)
    simp only [removeTagsF, if_neg hc]
    rw [removeTagsF_id n rest (fun hm => h (List.mem_cons_of_mem c hm))]

theorem removeTags_id (l : List Char) (h : '<' ∉ l) : removeTags l = l :=
  removeTagsF_id _ _ h

theorem matchUrlAt_none (l : List Char) (h : '/' ∉ l) : matchUrlAt l = none := by
  have h1 : isPre "https://".data l = false := by
    cases hp : isPre "https://".data l
    · rfl
    · exact absurd (isPre_mem _ _ hp '/' (by decide)) h
  have h2 : isPre "http://".data l = false := by
    cases hp : isPre "http://".data l
    · rfl
    · exact absurd (isPre_mem _ _ hp '/' (by decide)) h
  simp [matchUrlAt, h1, h2]

theorem removeUrlsF_id : ∀ (n : Nat) (l : List Char), '/' ∉ l → removeUrlsF n l = l
  | 0, _, _ => rfl
  | _ + 1, [], _ => rfl
  | n + 1, c :: rest, h => by
    simp only [removeUrlsF, matchUrlAt_none _ h]
    rw [removeUrlsF_id n rest (fun hm => h (List.mem_cons_of_mem c hm))]

theorem removeUrls_id (l : List Char) (h : '/' ∉ l) : removeUrls l = l :=
  removeUrlsF_id _ _ h

theorem matchEmail_none (pw : Bool) (l : List Char) (h : '@' ∉ l) :
    matchEmail pw l = none := by
  simp only [matchEmail]
  by_cases h1 : l.takeWhile localChar = []
  · simp [h1]
  · rw [if_neg h1]
    by_cases h2 : pw = isWordChar ((l.takeWhile localChar).headD ' ')
    · rw [if_pos h2]
    · rw [if_neg h2]
      have h3 : ¬ (l.drop (l.takeWhile localChar).length).headD ' ' = '@' := by
        cases hd : l.drop (l.takeWhile localChar).length with
        | nil => simp
        | cons d ds =>
          simp only [List.headD_cons]
          intro hc
          have hdm : d ∈ l.drop (l.takeWhile localChar).length := by
            rw [hd]; exact List.mem_cons_self d ds
          exact h (hc ▸ (List.drop_sublist _ _).mem hdm)
      rw [if_neg h3]

theorem removeEmailsF_id : ∀ (n : Nat) (pw : Bool) (l : List Char),
    '@' ∉ l → removeEmailsF n pw l = l
  | 0, _, _, _ => rfl
  | _ + 1, _, [], _ => rfl
  | n + 1, pw, c :: rest, h => by
    simp only [removeEmailsF, matchEmail_none pw _ h]
    rw [removeEmailsF_id n (isWordChar c) rest (fun hm => h (List.mem_cons_of_mem c hm))]

theorem removeEmails_id (l : List Char) (h : '@' ∉ l) : removeEmails l = l :=
  removeEmailsF_id _ _ _ h

theorem collapse_id : ∀ (l : List Char),
    (∀ c ∈ l, isPySpace c = true → c = ' ') → noTwoSpaces l = true → collapse l = l
  | [], _, _ => rfl
  | c :: rest, hb, ht => by
    simp only [noTwoSpaces, Bool.and_eq_true, Bool.not_eq_true'] at ht
    have ih := collapse_id rest
      (fun d hd => hb d (List.mem_cons_of_mem c hd)) ht.2
    by_cases hc : isPySpace c = true
    · have hcsp : c = ' ' := hb c (List.mem_cons_self _ _) hc
      have hss : startsSpace rest = false := by
        rcases Bool.and_eq_false_iff.1 ht.1 with h' | h'
        · exact absurd hc (by simp [h'])
        · exact h'
      subst hcsp
      show collapse (' ' :: rest) = ' ' :: rest
      simp only [collapse]
      rw [if_pos hc, if_neg (by simp [hss]), ih]
    · simp only [collapse]
      rw [if_neg hc, ih]

theorem removeBoilAux_id : ∀ (pw : Bool) (l : List Char),
    hasMarkerAux pw l = false → removeBoilAux pw l = l
  | _, [], _ => rfl
  | pw, c :: rest, h => by
    simp only [hasMarkerAux, Bool.or_eq_false_iff] at h
    simp only [removeBoilAux, h.1, Bool.false_eq_true, if_false]
    rw [removeBoilAux_id (isWordChar c) rest h.2]

theorem splitOnNl_id : ∀ (l : List Char), '\n' ∉ l → splitOnNl l = [l]
  | [], _ => rfl
  | c :: rest, h => by
    have hc : ¬ c = '\n' := fun hc => h (hc ▸ List.mem_cons_self c rest)
    simp only [splitOnNl, if_neg hc]
    rw [splitOnNl_id rest (fun hm => h (List.mem_cons_of_mem c hm))]

theorem dropWhileSpace_id (l : List Char) (h : startsSpace l = false) :
    l.dropWhile isPySpace = l := by
  cases l with
  | nil => rfl
  | cons c rest =>
    simp only [startsSpace] at h
    simp [List.dropWhile_cons, h]

theorem dropTrailSpace_id : ∀ (l : List Char), endsSpace l = false → dropTrailSpace l = l
  | [], _ => rfl
  | c :: rest, h => by
    simp only [endsSpace] at h
    by_cases hr : rest.isEmpty
    · have hnil : rest = [] := List.isEmpty_iff.1 hr
      subst hnil
      have hc : isPySpace c = false := by simpa using h
      simp [dropTrailSpace, hc]
    · rw [if_neg (by simpa using hr)] at h
      have ih := dropTrailSpace_id rest h
      have hrest : rest ≠ [] := by simpa [List.isEmpty_iff] using hr
      simp only [dropTrailSpace, ih]
      rw [if_neg (by simp [hrest])]

theorem pyStrip_id (l : List Char) (h1 : startsSpace l = false)
    (h2 : endsSpace l = false) : pyStrip l = l := by
  unfold pyStrip
  rw [dropWhileSpace_id l h1, dropTrailSpace_id l h2]

theorem charStrip_id : ∀ (l : List Char), (∀ c ∈ l, keepChar c = true) → charStrip l = l
  | [], _ => rfl
  | c :: rest, h => by
    have ih := charStrip_id rest (fun d hd => h d (List.mem_cons_of_mem c hd))
    simp only [charStrip, List.map_cons] at ih ⊢
    rw [if_pos (h c (List.mem_cons_self _ _)), ih]

theorem startsWithGt_false (l : List Char) (h : '>' ∉ l) : startsWithGt l = false := by
  cases l with
  | nil => rfl
  | cons c rest =>
    simp only [startsWithGt, decide_eq_false_iff_not]
    exact fun hc => h (hc ▸ List.mem_cons_self c rest)

/-! ## Shape invariants of cleaned text

Every output of `cleanChars` consists of kept characters with all whitespace
reduced to single interior spaces, is trimmed, and obeys the 500-character
cap structure.  These invariants make every pipeline stage except the
boilerplate truncation the identity on a second pass. -/

theorem charStrip_mem (l : List Char) : ∀ c ∈ charStrip l, keepChar c = true := by
  intro c hc
  obtain ⟨d, _, hd⟩ := List.mem_map.1 hc
  by_cases h : keepChar d = true
  · rwa [← hd, if_pos h]
  · rw [← hd, if_neg h]; decide

theorem collapse_mem : ∀ (l : List Char), ∀ c ∈ collapse l,
    c = ' ' ∨ (c ∈ l ∧ isPySpace c = false)
  | [], c, hc => absurd hc (List.not_mem_nil c)
  | d :: rest, c, hc => by
    by_cases hd : isPySpace d = true
    · by_cases hs : startsSpace rest = true
      · rw [show collapse (d :: rest) = collapse rest by
            simp only [collapse]; rw [if_pos hd, if_pos hs]] at hc
        rcases collapse_mem rest c hc with h | h
        · exact Or.inl h
        · exact Or.inr ⟨List.mem_cons_of_mem d h.1, h.2⟩
      · rw [show collapse (d :: rest) = ' ' :: collapse rest by
            simp only [collapse]
            rw [if_pos hd, if_neg hs]] at hc
        rcases List.mem_cons.1 hc with rfl | hc
        · exact Or.inl rfl
        · rcases collapse_mem rest c hc with h | h
          · exact Or.inl h
          · exact Or.inr ⟨List.mem_cons_of_mem d h.1, h.2⟩
    · rw [show collapse (d :: rest) = d :: collapse rest by
          simp only [collapse]; rw [if_neg hd]] at hc
      rcases List.mem_cons.1 hc with rfl | hc
      · exact Or.inr ⟨List.mem_cons_self _ _, by simpa using hd⟩
      · rcases collapse_mem rest c hc with h | h
        · exact Or.inl h
        · exact Or.inr ⟨List.mem_cons_of_mem d h.1, h.2⟩

theorem collapse_startsSpace : ∀ (l : List Char),
    startsSpace (collapse l) = startsSpace l
  | [] => rfl
  | d :: rest => by
    by_cases hd : isPySpace d = true
    · by_cases hs : startsSpace rest = true
      · rw [show collapse (d :: rest) = collapse rest by
            simp only [collapse]; rw [if_pos hd, if_pos hs]]
        rw [collapse_startsSpace rest, hs]
        simp only [startsSpace, hd]
      · rw [show collapse (d :: rest) = ' ' :: collapse rest by
            simp only [collapse]; rw [if_pos hd, if_neg hs]]
        simp only [startsSpace, hd]
        decide
    · rw [show collapse (d :: rest) = d :: collapse rest by
          simp only [collapse]; rw [if_neg hd]]
      simp [startsSpace]

theorem collapse_noTwo : ∀ (l : List Char), noTwoSpaces (collapse l) = true
  | [] => rfl
  | d :: rest => by
    by_cases hd : isPySpace d = true
    · by_cases hs : startsSpace rest = true
      · rw [show collapse (d :: rest) = collapse rest by
            simp only [collapse]; rw [if_pos hd, if_pos hs]]
        exact collapse_noTwo rest
      · rw [show collapse (d :: rest) = ' ' :: collapse rest by
            simp only [collapse]; rw [if_pos hd, if_neg hs]]
        simp only [noTwoSpaces, collapse_noTwo rest, Bool.and_true,
          collapse_startsSpace rest, Bool.not_eq_true']
        simp [hs]
    · rw [show collapse (d :: rest) = d :: collapse rest by
          simp only [collapse]; rw [if_neg hd]]
      simp only [noTwoSpaces, collapse_noTwo rest, Bool.and_true, Bool.not_eq_true']
      simp [hd]

theorem mem_of_dropWhileSpace : ∀ (l : List Char) (c : Char),
    c ∈ l.dropWhile isPySpace → c ∈ l
  | [], _, hc => hc
  | d :: rest, c, hc => by
    by_cases hd : isPySpace d = true
    · rw [List.dropWhile_cons, if_pos hd] at hc
      exact List.mem_cons_of_mem d (mem_of_dropWhileSpace rest c hc)
    · rwa [List.dropWhile_cons, if_neg hd] at hc

theorem mem_of_dropTrail : ∀ (l : List Char) (c : Char),
    c ∈ dropTrailSpace l → c ∈ l
  | [], _, hc => hc
  | d :: rest, c, hc => by
    simp only [dropTrailSpace] at hc
    by_cases h : (dropTrailSpace rest = [] && isPySpace d) = true
    · rw [if_pos h] at hc
      exact absurd hc (List.not_mem_nil c)
    · rw [if_neg h] at hc
      rcases List.mem_cons.1 hc with rfl | hc
      · exact List.mem_cons_self _ _
      · exact List.mem_cons_of_mem d (mem_of_dropTrail rest c hc)

theorem noTwo_dropWhileSpace : ∀ (l : List Char), noTwoSpaces l = true →
    noTwoSpaces (l.dropWhile isPySpace) = true
  | [], h => h
  | d :: rest, h => by
    simp only [noTwoSpaces, Bool.and_eq_true] at h
    by_cases hd : isPySpace d = true
    · rw [List.dropWhile_cons, if_pos hd]
      exact noTwo_dropWhileSpace rest h.2
    · rw [List.dropWhile_cons, if_neg hd]
      simp only [noTwoSpaces, Bool.and_eq_true]
      exact h

theorem dropTrail_starts : ∀ (l : List Char),
    dropTrailSpace l = [] ∨ startsSpace (dropTrailSpace l) = startsSpace l
  | [] => Or.inl rfl
  | d :: rest => by
    simp only [dropTrailSpace]
    by_cases h : (dropTrailSpace rest = [] && isPySpace d) = true
    · rw [if_pos h]; exact Or.inl rfl
    · rw [if_neg h]; exact Or.inr rfl

theorem noTwo_dropTrail : ∀ (l : List Char), noTwoSpaces l = true →
    noTwoSpaces (dropTrailSpace l) = true
  | [], h => h
  | d :: rest, h => by
    simp only [noTwoSpaces, Bool.and_eq_true, Bool.not_eq_true'] at h
    simp only [dropTrailSpace]
    by_cases hc : (dropTrailSpace rest = [] && isPySpace d) = true
    · rw [if_pos hc]; rfl
    · rw [if_neg hc]
      simp only [noTwoSpaces, Bool.and_eq_true, Bool.not_eq_true']
      refine ⟨?_, noTwo_dropTrail rest h.2⟩
      rcases dropTrail_starts rest with h' | h'
      · simp [h', startsSpace]
      · rw [h']
        exact h.1

theorem startsSpace_dropWhileSpace : ∀ (l : List Char),
    startsSpace (l.dropWhile isPySpace) = false
  | [] => rfl
  | d :: rest => by
    by_cases hd : isPySpace d = true
    · rw [List.dropWhile_cons, if_pos hd]
      exact startsSpace_dropWhileSpace rest
    · rw [List.dropWhile_cons, if_neg hd]
      simpa [startsSpace] using hd

theorem endsSpace_dropTrail : ∀ (l : List Char),
    endsSpace (dropTrailSpace l) = false
  | [] => rfl
  | d :: rest => by
    simp only [dropTrailSpace]
    by_cases hc : (dropTrailSpace rest = [] && isPySpace d) = true
    · rw [if_pos hc]; rfl
    · rw [if_neg hc]
      by_cases hr : dropTrailSpace rest = []
      · have hd : isPySpace d = false := by
          by_cases hdd : isPySpace d = true
          · exact absurd (by simp [hr, hdd]) hc
          · simpa using hdd
        rw [hr]
        simp [endsSpace, hd]
      · have : (dropTrailSpace rest).isEmpty = false := by
          simpa [List.isEmpty_iff] using hr
        simp only [endsSpace, this, Bool.false_eq_true, if_false]
        exact endsSpace_dropTrail rest

theorem startsSpace_take_succ (n : Nat) (l : List Char) :
    startsSpace (l.take (n + 1)) = startsSpace l := by
  cases l <;> simp [startsSpace, List.take_succ_cons]

theorem noTwo_take : ∀ (n : Nat) (l : List Char), noTwoSpaces l = true →
    noTwoSpaces (l.take n) = true
  | 0, _, _ => rfl
  | _ + 1, [], h => h
  | n + 1, c :: rest, h => by
    simp only [noTwoSpaces, Bool.and_eq_true, Bool.not_eq_true'] at h
    simp only [List.take_cons, noTwoSpaces, Bool.and_eq_true, Bool.not_eq_true']
    refine ⟨?_, noTwo_take n rest h.2⟩
    cases n with
    | zero => simp [List.take_zero, startsSpace]
    | succ m =>
      rw [startsSpace_take_succ]
      exact h.1

theorem startsSpace_cap (v : List Char) : startsSpace (capAt500 v) = startsSpace v := by
  unfold capAt500
  by_cases h : 500 < v.length
  · rw [if_pos h]
    cases v with
    | nil => simp at h
    | cons c rest =>
      rw [show (500 : Nat) = 499 + 1 from rfl, List.take_succ_cons]
      simp [startsSpace]
  · rw [if_neg h]

theorem noTwo_append_dots : ∀ (a : List Char), noTwoSpaces a = true →
    noTwoSpaces (a ++ dots) = true
  | [], _ => by decide
  | c :: rest, h => by
    simp only [noTwoSpaces, Bool.and_eq_true, Bool.not_eq_true'] at h
    simp only [List.cons_append, noTwoSpaces, Bool.and_eq_true, Bool.not_eq_true']
    refine ⟨?_, noTwo_append_dots rest h.2⟩
    cases rest with
    | nil =>
      have hzero : startsSpace (List.append ([] : List Char) dots) = false := by decide
      rw [hzero, Bool.and_false]
    | cons d ds =>
      simp only [List.cons_append, startsSpace]
      simpa [startsSpace] using h.1

theorem endsSpace_append_dots : ∀ (a : List Char), endsSpace (a ++ dots) = false
  | [] => by decide
  | c :: rest => by
    have hne : ((rest ++ dots).isEmpty) = false := by
      cases rest <;> simp [dots]
    simp only [List.cons_append, endsSpace, List.append_eq, hne, Bool.false_eq_true,
      if_false]
    exact endsSpace_append_dots rest

theorem capAt500_stable (v : List Char) (h : 500 < (capAt500 v).length) :
    capAt500 v = (capAt500 v).take 500 ++ dots := by
  unfold capAt500 at h ⊢
  by_cases hv : 500 < v.length
  · rw [if_pos hv] at h ⊢
    have hlen : (v.take 500).length = 500 := by
      rw [List.length_take]
      exact Nat.min_eq_left (le_of_lt hv)
    rw [List.take_left' hlen]
  · rw [if_neg hv] at h
    exact absurd h hv

theorem string_data_mk (l : List Char) : (String.mk l).data = l := rfl

theorem mem_capAt500 {v : List Char} {c : Char} (hc : c ∈ capAt500 v) :
    c ∈ v ∨ c ∈ dots := by
  unfold capAt500 at hc
  by_cases h : 500 < v.length
  · rw [if_pos h] at hc
    rcases List.mem_append.1 hc with h' | h'
    · exact Or.inl ((List.take_sublist _ _).mem h')
    · exact Or.inr h'
  · rw [if_neg h] at hc
    exact Or.inl hc

theorem cleanChars_chars (l : List Char) : ∀ c ∈ cleanChars l,
    keepChar c = true ∧ (isPySpace c = true → c = ' ') := by
  intro c hc
  unfold cleanChars at hc
  rcases mem_capAt500 hc with hc2 | hc2
  · unfold pyStrip at hc2
    have hc4 : c ∈ collapse (charStrip (cleanStage7 l)) :=
      mem_of_dropWhileSpace _ _ (mem_of_dropTrail _ _ hc2)
    rcases collapse_mem _ c hc4 with h | h
    · subst h
      exact ⟨by decide, fun _ => rfl⟩
    · exact ⟨charStrip_mem _ c h.1, fun hsp => absurd hsp (by simp [h.2])⟩
  · have hdot : c = '.' := by simpa [dots] using hc2
    subst hdot
    exact ⟨by decide, by decide⟩

theorem cleanChars_noTwo (l : List Char) : noTwoSpaces (cleanChars l) = true := by
  unfold cleanChars capAt500
  by_cases h : 500 < (pyStrip (collapse (charStrip (cleanStage7 l)))).length
  · rw [if_pos h]
    unfold pyStrip
    exact noTwo_append_dots _ (noTwo_take _ _ (noTwo_dropTrail _
      (noTwo_dropWhileSpace _ (collapse_noTwo _))))
  · rw [if_neg h]
    unfold pyStrip
    exact noTwo_dropTrail _ (noTwo_dropWhileSpace _ (collapse_noTwo _))

theorem cleanChars_starts (l : List Char) : startsSpace (cleanChars l) = false := by
  unfold cleanChars
  rw [startsSpace_cap]
  unfold pyStrip
  rcases dropTrail_starts ((collapse (charStrip (cleanStage7 l))).dropWhile isPySpace)
    with h | h
  · rw [h]; rfl
  · rw [h]
    exact startsSpace_dropWhileSpace _

theorem cleanChars_ends (l : List Char) : endsSpace (cleanChars l) = false := by
  unfold cleanChars capAt500
  by_cases h : 500 < (pyStrip (collapse (charStrip (cleanStage7 l)))).length
  · rw [if_pos h]
    exact endsSpace_append_dots _
  · rw [if_neg h]
    unfold pyStrip
    exact endsSpace_dropTrail _

theorem cleanChars_cap (l : List Char) (h : 500 < (cleanChars l).length) :
    cleanChars l = (cleanChars l).take 500 ++ dots := by
  unfold cleanChars at h ⊢
  exact capAt500_stable _ h

/-- Text in the shape produced by `cleanChars` (kept characters only, single
interior spaces, trimmed, cap structure) that contains no boilerplate marker
is a fixed point of the cleaning pipeline. -/
theorem cleanChars_fix (t : List Char)
    (hchars : ∀ c ∈ t, keepChar c = true ∧ (isPySpace c = true → c = ' '))
    (hnt : noTwoSpaces t = true) (hs : startsSpace t = false)
    (he : endsSpace t = false)
    (hcap : 500 < t.length → t = t.take 500 ++ dots)
    (hm : containsMarker t = false) :
    cleanChars t = t := by
  have hblank : ∀ c ∈ t, isPySpace c = true → c = ' ' := fun c hc => (hchars c hc).2
  have hkeep : ∀ c ∈ t, keepChar c = true := fun c hc => (hchars c hc).1
  have no_amp : '&' ∉ t := fun hc => absurd (hkeep '&' hc) (by decide)
  have no_lt : '<' ∉ t := fun hc => absurd (hkeep '<' hc) (by decide)
  have no_slash : '/' ∉ t := fun hc => absurd (hkeep '/' hc) (by decide)
  have no_at : '@' ∉ t := fun hc => absurd (hkeep '@' hc) (by decide)
  have no_gt : '>' ∉ t := fun hc => absurd (hkeep '>' hc) (by decide)
  have no_nl : '\n' ∉ t := fun hc => absurd ((hchars '\n' hc).2 (by decide)) (by decide)
  have h7 : cleanStage7 t = t := by
    unfold cleanStage7
    rw [unescape_id _ no_amp, removeTags_id _ no_lt, removeUrls_id _ no_slash,
      removeEmails_id _ no_at, collapse_id t hblank hnt]
    have hmm : hasMarkerAux false t = false := hm
    rw [removeBoilAux_id false t hmm, splitOnNl_id t no_nl]
    have hpred : (!startsWithGt (pyStrip t)) = true := by
      rw [pyStrip_id t hs he, startsWithGt_false t no_gt]
      rfl
    rw [show List.filter (fun line => !startsWithGt (pyStrip line)) [t] = [t] by
      simp [List.filter, hpred]]
    rfl
  show capAt500 (pyStrip (collapse (charStrip (cleanStage7 t)))) = t
  rw [h7, charStrip_id t hkeep, collapse_id t hblank hnt, pyStrip_id t hs he]
  unfold capAt500
  by_cases hlen : 500 < t.length
  · rw [if_pos hlen]
    exact (hcap hlen).symm
  · rw [if_neg hlen]

/-- C4 — evaluation at the failing input: the source collapses all
whitespace, newlines included, on line 62 *before* the quoted-line filter of
lines 68–70, so the quoted line `"> secret"` is merged into one line that
does not start with `>` and its content survives into the output (the `>`
itself is later replaced by a space on line 73). -/
theorem quoted_line_leaks :
    clean_email_body "hello\n> secret\nworld" = "hello secret world" := by decide

/-- C5 — evaluation at the failing input: for a document whose provider
embedding is the zero vector and a query with provider vector (3, 4), line
111 divides by the zero norm, every component becomes 0/0 = NaN (warning
suppressed by line 14), the dot product of line 144 is NaN rather than 0,
and NaN fails the `score >= threshold` filter of line 180, so the fallback
hands the caller a score of NaN — not similarity 0, and not a finite
number.  No recovery branch exists in the code, contradicting the claim and
the spec's stated DegenerateVectorError policy (§4.2, §7). -/
theorem zero_norm_not_recovered :
    scoreOf [0, 0] [3, 4] = some FVal.nan ∧
    (scoreOf [0, 0] [3, 4]).map
      (fun s => semantic_search_single s (1 / 10) "doc" 5) =
      some [("doc", FVal.nan)] := by
  constructor <;> decide

/-- C6 — counterexample: for a document with empty subject and empty body the
source substitutes the literal `"empty email"` (line 107), not the spec's
`"empty document"`. -/
theorem empty_doc_placeholder_cex :
    text_to_embed ⟨"", "", none⟩ = "empty email" ∧
    text_to_embed ⟨"", "", none⟩ ≠ "empty document" := by
  constructor <;> decide

/-- C6 — amended: whenever the combined subject+body string is empty or
whitespace-only, the placeholder substituted on line 107 is the literal
`"empty email"`. -/
theorem empty_doc_placeholder (e : Email)
    (h : pyStripS (combined_text e) = "") :
    text_to_embed e = "empty email" := by
  unfold text_to_embed
  rw [if_pos h]

/-- Witness for C6's amended statement at the empty document. -/
theorem empty_doc_placeholder_wit :
    pyStripS (combined_text ⟨"", "", none⟩) = "" ∧
    text_to_embed ⟨"", "", none⟩ = "empty email" :=
  ⟨by decide, empty_doc_placeholder ⟨"", "", none⟩ (by decide)⟩

/-- C7 — counterexample: the source embeds the raw (merely
whitespace-stripped) subject, not the normalized subject: for subject
`"<b>Hi</b>"` the built text keeps the HTML tags while the spec's formula
(normalized subject twice plus normalized body) would clean them away. -/
theorem subject_not_normalized_cex :
    combined_text ⟨"<b>Hi</b>", "x", none⟩ ≠
      combined_text_specC7 ⟨"<b>Hi</b>", "x", none⟩ := by decide

/-- C7 — amended: the body does pass through the normalization pipeline and
the subject is repeated twice, but the subject is only whitespace-stripped
(line 95), not normalized; the spec's formula holds exactly for documents
whose subject is already invariant under the pipeline, i.e. when cleaning
the subject coincides with stripping it. -/
theorem subject_only_stripped (e : Email)
    (h : clean_email_body e.subject = pyStripS e.subject) :
    combined_text e = combined_text_specC7 e := by
  unfold combined_text combined_text_specC7
  rw [h]

/-- Witness for C7's amended statement: a plain-text subject. -/
theorem subject_only_stripped_wit :
    clean_email_body (Email.subject ⟨"Hello", "x", none⟩) =
      pyStripS (Email.subject ⟨"Hello", "x", none⟩) ∧
    combined_text ⟨"Hello", "x", none⟩ = combined_text_specC7 ⟨"Hello", "x", none⟩ :=
  ⟨by decide, subject_only_stripped ⟨"Hello", "x", none⟩ (by decide)⟩

/-- C8 — counterexample: cleaning is not idempotent.  The special-character
substitution of line 73 can fabricate a boilerplate marker: cleaning
`"best#regards"` yields `"best regards"` (the `#` becomes a space), and a
second cleaning pass truncates at that marker (line 65), yielding the empty
string. -/
theorem clean_email_body_not_idem :
    clean_email_body (clean_email_body "best#regards") ≠
      clean_email_body "best#regards" := by decide

/-- C8 — amended: the whitespace collapse, quoted-line handling, character
stripping and 500-character cap with ellipsis are all stable under
repetition, so cleaning is idempotent on every input whose cleaned form
contains no boilerplate marker; full idempotence fails only because the
character substitution of line 73 can fabricate a marker (see the
counterexample) that the boilerplate truncation of line 65 then removes on
the second pass. -/
theorem clean_email_body_idem (s : String)
    (h : containsMarker (cleanChars s.data) = false) :
    clean_email_body (clean_email_body s) = clean_email_body s := by
  by_cases hs : s = ""
  · subst hs
    rfl
  · have h1 : clean_email_body s = ⟨cleanChars s.data⟩ := by
      unfold clean_email_body
      rw [if_neg hs]
    rw [h1]
    by_cases h2 : (⟨cleanChars s.data⟩ : String) = ""
    · rw [h2]
      rfl
    · unfold clean_email_body
      rw [if_neg h2]
      rw [string_data_mk]
      exact congrArg String.mk (cleanChars_fix _ (cleanChars_chars s.data)
        (cleanChars_noTwo s.data) (cleanChars_starts s.data)
        (cleanChars_ends s.data) (cleanChars_cap s.data) h)

/-- Witness for C8's amended statement: a marker-free input. -/
theorem clean_email_body_idem_wit :
    containsMarker (cleanChars ("hello there.").data) = false ∧
    clean_email_body (clean_email_body "hello there.") = clean_email_body "hello there." :=
  ⟨by decide, clean_email_body_idem "hello there." (by decide)⟩

end MailCLI
